import Mathlib

/-!
Verification of the room-scheduler roster engine (src/src/App.tsx).

Shallow embedding conventions:
* Days, slots, rooms and therapist names are `String`s, exactly as in the
  source, and the concrete configuration lists `days`, `slots`, `rooms`,
  `therapists` are copied from the top of App.tsx.
* A normalized schedule (the component state `schedule`, which is always
  produced by `normalizeSchedule` or by single-cell updates of such a grid)
  stores one string per (day, slot, room) cell, with `""` meaning empty.
  It is modelled as a total function `Grid`.  A possibly partial/stale
  externally supplied grid (the argument of `normalizeSchedule`) is modelled
  as `RawSchedulerState`, where `none` models an absent key path and the
  JS read `schedule?.[day]?.[slot]?.[room] ?? ""` is `(g d s r).getD ""`.
* `generateAutoRoster` is parameterised by a `Config` holding the four
  calendar lists so that the balanced-load scenario (4 unrestricted rooms)
  can be instantiated; `cfg0` is the source's configuration.  The mutable
  ref `lastAssignedIndex` is threaded explicitly as the `cursor` field of
  the generator state, starting from the caller-supplied index (the ref is
  initialised to 0 in the source).
* The JS in-place `eligibleTherapists.sort((a, b) => a.score - b.score)`
  is a stable sort by score (ES2019 stability).  The output of a stable sort
  under a total preorder is unique — ties keep their original relative order —
  so it is modelled here by a stable insertion sort (`sortByScore`), which is
  extensionally the same function and reduces by structural recursion.
-/

def days : List String := ["Mon", "Tue", "Wed", "Thu", "Fri"]

def slots : List String := ["AM", "PM"]

def rooms : List String :=
  ["Room A", "Room B", "Room C", "Room D", "Biz 2", "CLB", "L4 Pod", "UHC", "BTC"]

def therapists : List String :=
  ["Dominic Yeo", "Kirsty Png", "Soon Jiaying", "Andrew Lim", "Janice Leong",
   "Oliver Tan", "Claudia Ahl", "Seanna Neo", "Xiao Hui", "Tika Zainal"]

/-- A normalized schedule grid: therapist name per (day, slot, room), `""` = empty. -/
abbrev Grid := String → String → String → String

/-- A possibly partial externally supplied schedule: `none` = missing key path. -/
abbrev RawSchedulerState := String → String → String → Option String

/-- Per-therapist availability rules (type `TherapistAvailabilityRules` entry). -/
structure AvailabilityRule where
  availableDays : List String
  wfhDays : List String
  availableSlots : List String
  maxConsecutiveSlotsPerDay : Nat

/-- The whole rule set `therapistRules` (total: the state object has an entry
for every therapist; values at non-therapist keys are never consulted). -/
abbrev TherapistRules := String → AvailabilityRule

/-- `normalizeSchedule` from App.tsx: the result has exactly the calendar key
paths day ∈ days, slot ∈ slots, room ∈ rooms, each carrying the old value read
through optional chaining with default `""`. -/
def normalizeSchedule (schedule : RawSchedulerState) : RawSchedulerState :=
  fun day slot room =>
    if day ∈ days ∧ slot ∈ slots ∧ room ∈ rooms then
      some ((schedule day slot room).getD "")
    else none

/-- `initializeDefaultAvailability` from App.tsx (renamed): every therapist is
available all days and slots, no WFH days, max 2 consecutive slots. -/
def defaultAvailability : TherapistRules :=
  fun _ =>
    { availableDays := days
      wfhDays := []
      availableSlots := slots
      maxConsecutiveSlotsPerDay := 2 }

/-- `isUHCBlocked` from App.tsx: the UHC room is only allowed Wed AM and Thu PM. -/
def isUHCBlocked (day slot room : String) : Bool :=
  if room = "UHC" then
    decide (¬ ((day = "Wed" ∧ slot = "AM") ∨ (day = "Thu" ∧ slot = "PM")))
  else false

/-- Writing one cell of a grid (the object mutation `g[day][slot][room] = v`
on a deep copy). -/
def setCell (g : Grid) (day slot room v : String) : Grid :=
  fun d s r => if d = day ∧ s = slot ∧ r = room then v else g d s r

/-- `clearSlot` from App.tsx: empty one cell. -/
def clearSlot (g : Grid) (day slot room : String) : Grid :=
  setCell g day slot room ""

/-- `onDropCell` from App.tsx, as a grid transformer.  The event payload is the
dragged therapist name, the source type (`"list"` or `"cell"`) and the source
location when dragging out of a cell.  A drop on a blocked UHC cell, or with an
empty therapist name, leaves the schedule state unchanged. -/
def onDropCell (g : Grid) (toDay toSlot toRoom : String)
    (therapistName sourceType : String)
    (sourceLocation : Option (String × String × String)) : Grid :=
  if isUHCBlocked toDay toSlot toRoom then g
  else if therapistName = "" then g
  else
    let g1 :=
      match sourceType, sourceLocation with
      | "cell", some (fromDay, fromSlot, fromRoom) =>
        if ¬(fromDay = toDay ∧ fromSlot = toSlot ∧ fromRoom = toRoom) ∧
            g fromDay fromSlot fromRoom = therapistName then
          setCell g fromDay fromSlot fromRoom ""
        else g
      | _, _ => g
    setCell g1 toDay toSlot toRoom therapistName

/-- The calendar configuration (the four fixed lists read by the generator and
the count scan). -/
structure Config where
  days : List String
  slots : List String
  rooms : List String
  therapists : List String

/-- The source's configuration. -/
def cfg0 : Config := ⟨days, slots, rooms, therapists⟩

/-- Fairness counters (`TherapistCounts`), as total functions with 0 default. -/
structure TherapistCounts where
  totalSlots : String → Nat
  roomDistribution : String → String → Nat

/-- One step of the count scan in `calculateTherapistCounts`: look at a cell,
and if it holds a therapist present in the counts object, bump the totals. -/
def countCell (cfg : Config) (g : Grid) (acc : TherapistCounts)
    (day slot room : String) : TherapistCounts :=
  let a := g day slot room
  if a ≠ "" ∧ a ∈ cfg.therapists then
    { totalSlots := fun x => if x = a then acc.totalSlots x + 1 else acc.totalSlots x
      roomDistribution := fun x r =>
        if x = a ∧ r = room then acc.roomDistribution x r + 1
        else acc.roomDistribution x r }
  else acc

/-- `calculateTherapistCounts` from App.tsx: full scan of the grid in
day/slot/room order. -/
def calculateTherapistCounts (cfg : Config) (g : Grid) : TherapistCounts :=
  cfg.days.foldl
    (fun acc day =>
      cfg.slots.foldl
        (fun acc slot =>
          cfg.rooms.foldl (fun acc room => countCell cfg g acc day slot room) acc)
        acc)
    ⟨fun _ => 0, fun _ _ => 0⟩

/-- Per-day occupancy tracking (`dayAssignments`): therapist → slot → taken. -/
abbrev DayAssignments := String → String → Bool

/-- `canAssignTherapist` from `generateAutoRoster`, checks in source order:
UHC window, WFH, general day/slot availability, per-day consecutive cap,
same-slot exclusivity. -/
def canAssignTherapist (rules : TherapistRules) (therapist day slot room : String)
    (dayA : DayAssignments) : Bool :=
  if room = "UHC" ∧ ¬((day = "Wed" ∧ slot = "AM") ∨ (day = "Thu" ∧ slot = "PM")) then
    false
  else if day ∈ (rules therapist).wfhDays then false
  else if day ∉ (rules therapist).availableDays ∨ slot ∉ (rules therapist).availableSlots then
    false
  else if (rules therapist).maxConsecutiveSlotsPerDay = 1 ∧
      dayA therapist (if slot = "AM" then "PM" else "AM") = true then false
  else if dayA therapist slot = true then false
  else true

/-- The generator's running state: grid under construction, the two fairness
counters (`therapistTotalAssignments`, `therapistRoomUsage`), and the
round-robin cursor (`lastAssignedIndex`). -/
structure GenState where
  grid : Grid
  total : String → Nat
  roomUsage : String → String → Nat
  cursor : Nat

/-- The eligibility pass for one cell: scan the therapist list once, starting
at the cursor and wrapping around, keeping each allowed therapist together
with its score `total × 1000 + perRoom`. -/
def eligibleTherapists (cfg : Config) (rules : TherapistRules) (st : GenState)
    (dayA : DayAssignments) (day slot room : String) : List (String × Nat) :=
  (List.range cfg.therapists.length).filterMap fun i =>
    let t := cfg.therapists.getD ((st.cursor + i) % cfg.therapists.length) ""
    if canAssignTherapist rules t day slot room dayA then
      some (t, st.total t * 1000 + st.roomUsage t room)
    else none

/-- Stable insertion step: a new element goes after every earlier element with
a strictly smaller score and before every element with an equal or larger one,
so ties keep the original relative order. -/
def insertByScore (a : String × Nat) : List (String × Nat) → List (String × Nat)
  | [] => [a]
  | b :: l => if b.2 < a.2 then b :: insertByScore a l else a :: b :: l

/-- Stable sort by ascending score, modelling
`eligibleTherapists.sort((a, b) => a.score - b.score)`. -/
def sortByScore : List (String × Nat) → List (String × Nat)
  | [] => []
  | a :: l => insertByScore a (sortByScore l)

/-- The selection in `generateAutoRoster`: stable sort of the eligible list by
ascending score, then take the front element (if any). -/
def chooseBest (elig : List (String × Nat)) : Option (String × Nat) :=
  (sortByScore elig).head?

/-- Process one cell of the generation pass: build the eligibility list, and
either leave the cell empty or assign the best candidate, updating counters,
per-day occupancy and the cursor. -/
def processCell (cfg : Config) (rules : TherapistRules) (day slot room : String)
    (acc : GenState × DayAssignments) : GenState × DayAssignments :=
  let st := acc.1
  match chooseBest (eligibleTherapists cfg rules st acc.2 day slot room) with
  | none => ({ st with grid := setCell st.grid day slot room "" }, acc.2)
  | some (t, _) =>
    ({ grid := setCell st.grid day slot room t
       total := fun x => if x = t then st.total x + 1 else st.total x
       roomUsage := fun x r => if x = t ∧ r = room then st.roomUsage x r + 1
         else st.roomUsage x r
       cursor := cfg.therapists.indexOf t },
     fun x s => if x = t ∧ s = slot then true else acc.2 x s)

/-- Process one day: reset the per-day occupancy state, then walk slots and
rooms in order. -/
def processDay (cfg : Config) (rules : TherapistRules) (st : GenState)
    (day : String) : GenState :=
  (cfg.slots.foldl
    (fun acc slot =>
      cfg.rooms.foldl (fun a room => processCell cfg rules day slot room a) acc)
    (st, fun _ _ => false)).1

/-- The empty starting state of a generation run (`normalizeSchedule({})`,
all-zero counters, caller-supplied cursor). -/
def startState (cursor : Nat) : GenState :=
  ⟨fun _ _ _ => "", fun _ => 0, fun _ _ => 0, cursor⟩

/-- `generateAutoRoster` from App.tsx: one full pass over days, slots and rooms
starting from a fresh grid and zero counters. -/
def generateAutoRoster (cfg : Config) (rules : TherapistRules)
    (startCursor : Nat) : GenState :=
  cfg.days.foldl (processDay cfg rules) (startState startCursor)

/-- The balanced-load scenario configuration: same 5 days, 2 slots and 10
people, but only the four unrestricted rooms. -/
def cfgBalanced : Config :=
  ⟨days, slots, ["Room A", "Room B", "Room C", "Room D"], therapists⟩

/-- Static validity of every non-empty grid cell produced so far. -/
def staticInv (rules : TherapistRules) (g : Grid) : Prop :=
  ∀ day slot room, g day slot room ≠ "" →
    (room = "UHC" → (day = "Wed" ∧ slot = "AM") ∨ (day = "Thu" ∧ slot = "PM")) ∧
    day ∉ (rules (g day slot room)).wfhDays ∧
    day ∈ (rules (g day slot room)).availableDays ∧
    slot ∈ (rules (g day slot room)).availableSlots

/-- A rule set whose every therapist has Mon both available and WFH. -/
def wfhMonRules : TherapistRules :=
  fun _ =>
    { availableDays := days
      wfhDays := ["Mon"]
      availableSlots := slots
      maxConsecutiveSlotsPerDay := 2 }

/-- The within-day invariant tying the per-day occupancy state to the grid:
an unmarked (therapist, slot) occupies no room of this day and slot, and every
(therapist, slot) of this day occupies at most one room. -/
def dayInv (day : String) (g : Grid) (dayA : DayAssignments) : Prop :=
  ∀ t, t ≠ "" → ∀ s,
    (dayA t s = false → ∀ r, g day s r ≠ t) ∧
    (∀ r₁ r₂, g day s r₁ = t → g day s r₂ = t → r₁ = r₂)

/-- All cells of the calendar shape, in scan order. -/
def cellsOf (cfg : Config) : List (String × String × String) :=
  cfg.days.flatMap fun d => cfg.slots.flatMap fun s => cfg.rooms.map fun r => (d, s, r)

/-- The incremental counters match a full rescan of the current grid. -/
def countsAgree (cfg : Config) (st : GenState) : Prop :=
  (∀ t, st.total t = (calculateTherapistCounts cfg st.grid).totalSlots t) ∧
  (∀ t r, st.roomUsage t r = (calculateTherapistCounts cfg st.grid).roomDistribution t r)

/-! ### Basic lemmas about cell updates and the selection -/

theorem setCell_same (g : Grid) (day slot room v : String) :
    setCell g day slot room v day slot room = v := by
  simp [setCell]

theorem setCell_other (g : Grid) (day slot room v : String) {d s r : String}
    (h : ¬(d = day ∧ s = slot ∧ r = room)) :
    setCell g day slot room v d s r = g d s r := by
  simp only [setCell, if_neg h]

theorem setCell_self_empty {g : Grid} {day slot room : String}
    (h : g day slot room = "") : setCell g day slot room "" = g := by
  funext d s r
  by_cases hc : d = day ∧ s = slot ∧ r = room
  · obtain ⟨rfl, rfl, rfl⟩ := hc
    simp [setCell, h]
  · simp only [setCell, if_neg hc]

theorem mem_insertByScore {x a : String × Nat} :
    ∀ {l : List (String × Nat)}, x ∈ insertByScore a l → x = a ∨ x ∈ l := by
  intro l
  induction l with
  | nil => intro h; exact Or.inl (List.mem_singleton.1 h)
  | cons b l ih =>
    intro h
    rw [insertByScore] at h
    by_cases hb : b.2 < a.2
    · rw [if_pos hb] at h
      rcases List.mem_cons.1 h with h | h
      · exact Or.inr (List.mem_cons.2 (Or.inl h))
      · rcases ih h with h | h
        · exact Or.inl h
        · exact Or.inr (List.mem_cons.2 (Or.inr h))
    · rw [if_neg hb] at h
      rcases List.mem_cons.1 h with h | h
      · exact Or.inl h
      · exact Or.inr h

theorem mem_sortByScore {x : String × Nat} :
    ∀ {l : List (String × Nat)}, x ∈ sortByScore l → x ∈ l := by
  intro l
  induction l with
  | nil => intro h; rw [sortByScore] at h; exact h
  | cons a l ih =>
    intro h
    rw [sortByScore] at h
    rcases mem_insertByScore h with h | h
    · exact List.mem_cons.2 (Or.inl h)
    · exact List.mem_cons.2 (Or.inr (ih h))

theorem chooseBest_mem {l : List (String × Nat)} {x : String × Nat}
    (h : chooseBest l = some x) : x ∈ l :=
  mem_sortByScore (List.mem_of_mem_head? (Option.mem_def.mpr h))

/-- The front of the stable sort is exactly the first list element attaining
the minimal score: everything before it in the original order scores strictly
higher, everything anywhere scores at least as high. -/
theorem chooseBest_spec :
    ∀ {l : List (String × Nat)}, l ≠ [] →
      ∃ p sc l₁ l₂, l = l₁ ++ (p, sc) :: l₂ ∧ chooseBest l = some (p, sc) ∧
        (∀ q ∈ l, sc ≤ q.2) ∧ (∀ q ∈ l₁, sc < q.2) := by
  intro l
  induction l with
  | nil => intro h; exact absurd rfl h
  | cons x l ih =>
    intro _
    cases l with
    | nil =>
      refine ⟨x.1, x.2, [], [], by simp, by simp [chooseBest, sortByScore, insertByScore], ?_, by simp⟩
      intro q hq
      rw [List.mem_singleton.1 hq]
    | cons y l' =>
      obtain ⟨p, sc, l₁, l₂, hdec, hchoose, hmin, hstrict⟩ := ih (by simp)
      rw [chooseBest] at hchoose
      rcases hsort : sortByScore (y :: l') with _ | ⟨m, tail⟩
      · rw [hsort] at hchoose; exact absurd hchoose (by simp)
      · rw [hsort] at hchoose
        have hm : m = (p, sc) := by simpa using hchoose
        subst hm
        by_cases hlt : sc < x.2
        · refine ⟨p, sc, x :: l₁, l₂, by rw [hdec]; rfl, ?_, ?_, ?_⟩
          · rw [chooseBest, sortByScore, hsort, insertByScore, if_pos hlt]
            rfl
          · intro q hq
            rcases List.mem_cons.1 hq with h | h
            · rw [h]; exact Nat.le_of_lt hlt
            · exact hmin q h
          · intro q hq
            rcases List.mem_cons.1 hq with h | h
            · rw [h]; exact hlt
            · exact hstrict q h
        · refine ⟨x.1, x.2, [], y :: l', by simp, ?_, ?_, by simp⟩
          · rw [chooseBest, sortByScore, hsort, insertByScore, if_neg hlt]
            rfl
          · intro q hq
            rcases List.mem_cons.1 hq with h | h
            · rw [h]
            · exact Nat.le_trans (Nat.le_of_not_lt hlt) (hmin q h)

/-- C7: Normalization is idempotent — normalizing the result of
`normalizeSchedule` returns the identical grid. -/
theorem normalizeSchedule_idempotent (g : RawSchedulerState) :
    normalizeSchedule (normalizeSchedule g) = normalizeSchedule g := by
  funext day slot room
  by_cases h : day ∈ days ∧ slot ∈ slots ∧ room ∈ rooms
  · simp [normalizeSchedule, h]
  · simp [normalizeSchedule, h]

/-- C9: `clearSlot` empties exactly the targeted cell and leaves every other
cell of the grid unchanged. -/
theorem clearSlot_frame (g : Grid) (day slot room d s r : String)
    (h : ¬(d = day ∧ s = slot ∧ r = room)) :
    clearSlot g day slot room day slot room = "" ∧
    clearSlot g day slot room d s r = g d s r :=
  ⟨setCell_same g day slot room "", setCell_other g day slot room "" h⟩

/-- Closed witness for C9 at a concrete grid and a concrete pair of cells. -/
theorem clearSlot_frame_witness :
    ¬(("Mon" : String) = "Mon" ∧ ("AM" : String) = "AM" ∧ ("Room B" : String) = "Room A") ∧
    (clearSlot (fun _ _ _ => "Dominic Yeo") "Mon" "AM" "Room A" "Mon" "AM" "Room A" = "" ∧
     clearSlot (fun _ _ _ => "Dominic Yeo") "Mon" "AM" "Room A" "Mon" "AM" "Room B" =
       (fun _ _ _ => "Dominic Yeo" : Grid) "Mon" "AM" "Room B") :=
  ⟨by decide,
   clearSlot_frame (fun _ _ _ => "Dominic Yeo") "Mon" "AM" "Room A" "Mon" "AM" "Room B"
     (by decide)⟩

/-- C8: generation is a pure function of the rule set and starting cursor —
equal inputs give identical grids, counters and final cursor.  (Totality is
intrinsic: `generateAutoRoster` is a total Lean function.) -/
theorem generateAutoRoster_deterministic (rules : TherapistRules) (c₁ c₂ : Nat)
    (h : c₁ = c₂) :
    generateAutoRoster cfg0 rules c₁ = generateAutoRoster cfg0 rules c₂ := by
  rw [h]

/-- Closed witness for C8 at the default rules and cursor 0. -/
theorem generateAutoRoster_deterministic_witness :
    (0 : Nat) = 0 ∧
    generateAutoRoster cfg0 defaultAvailability 0 =
      generateAutoRoster cfg0 defaultAvailability 0 :=
  ⟨rfl, generateAutoRoster_deterministic defaultAvailability 0 0 rfl⟩

/-- Dropping from the therapist list onto an unblocked cell simply writes the
name into that one cell: no person-level rule is consulted. -/
theorem onDropCell_fromList (g : Grid) (toDay toSlot toRoom name : String)
    (loc : Option (String × String × String))
    (hb : isUHCBlocked toDay toSlot toRoom = false) (hn : name ≠ "") :
    onDropCell g toDay toSlot toRoom name "list" loc =
      setCell g toDay toSlot toRoom name := by
  rcases loc with _ | ⟨⟨fd, fs, fr⟩⟩ <;> simp [onDropCell, hb, hn]

/-- A drop targeting a blocked UHC cell is rejected before any mutation. -/
theorem onDropCell_blocked (g : Grid) (toDay toSlot toRoom name srcT : String)
    (loc : Option (String × String × String))
    (hb : isUHCBlocked toDay toSlot toRoom = true) :
    onDropCell g toDay toSlot toRoom name srcT loc = g := by
  simp [onDropCell, hb]

/-- Every name in the configured therapist list is non-empty. -/
theorem therapists_ne_empty : ∀ t ∈ therapists, t ≠ "" := by decide

/-- C10: a drop of a therapist from the list onto a cell not blocked by the
UHC room window sets exactly that cell to the dragged name and leaves every
other cell unchanged — independent of the therapist's availability rules,
WFH days, slot rules, consecutive cap, or other assignments in the grid. -/
theorem onDropCell_fromList_bypasses_rules (g : Grid)
    (toDay toSlot toRoom name : String) (loc : Option (String × String × String))
    (hb : isUHCBlocked toDay toSlot toRoom = false) (hn : name ∈ therapists) :
    onDropCell g toDay toSlot toRoom name "list" loc toDay toSlot toRoom = name ∧
    ∀ d s r, ¬(d = toDay ∧ s = toSlot ∧ r = toRoom) →
      onDropCell g toDay toSlot toRoom name "list" loc d s r = g d s r := by
  have hne : name ≠ "" := therapists_ne_empty name hn
  rw [onDropCell_fromList g toDay toSlot toRoom name loc hb hne]
  exact ⟨setCell_same g toDay toSlot toRoom name,
    fun d s r h => setCell_other g toDay toSlot toRoom name h⟩

/-- Closed witness for C10: drop onto Mon AM Room A with a fully unavailable
therapist (rules are irrelevant to manual drops). -/
theorem onDropCell_fromList_bypasses_rules_witness :
    (isUHCBlocked "Mon" "AM" "Room A" = false ∧ "Dominic Yeo" ∈ therapists) ∧
    (onDropCell (fun _ _ _ => "") "Mon" "AM" "Room A" "Dominic Yeo" "list" none
        "Mon" "AM" "Room A" = "Dominic Yeo" ∧
     ∀ d s r, ¬(d = "Mon" ∧ s = "AM" ∧ r = "Room A") →
       onDropCell (fun _ _ _ => "") "Mon" "AM" "Room A" "Dominic Yeo" "list" none
         d s r = (fun _ _ _ => "" : Grid) d s r) :=
  ⟨⟨by decide, by decide⟩,
   onDropCell_fromList_bypasses_rules (fun _ _ _ => "") "Mon" "AM" "Room A"
     "Dominic Yeo" none (by decide) (by decide)⟩


/-! ### Invariants of the generation pass -/

/-- Fold a list while preserving an invariant. -/
theorem foldl_inv {α β : Type _} {P : β → Prop} (f : β → α → β) :
    ∀ (l : List α) (b : β), P b → (∀ b' a, a ∈ l → P b' → P (f b' a)) →
      P (l.foldl f b) := by
  intro l
  induction l with
  | nil => intro b hb _; exact hb
  | cons x l ih =>
    intro b hb hstep
    exact ih (f b x) (hstep b x (List.mem_cons_self x l) hb)
      (fun b' a ha => hstep b' a (List.mem_cons_of_mem x ha))

/-- Members of the eligibility list passed `canAssignTherapist`, come from the
therapist list, and carry the score of the current counters. -/
theorem mem_eligible {cfg : Config} {rules : TherapistRules} {st : GenState}
    {dayA : DayAssignments} {day slot room : String} {t : String} {sc : Nat}
    (h : (t, sc) ∈ eligibleTherapists cfg rules st dayA day slot room) :
    canAssignTherapist rules t day slot room dayA = true ∧ t ∈ cfg.therapists ∧
    sc = st.total t * 1000 + st.roomUsage t room := by
  rw [eligibleTherapists, List.mem_filterMap] at h
  obtain ⟨i, hi, hfi⟩ := h
  simp only at hfi
  split at hfi
  · rename_i hc
    have hinj := Option.some.inj hfi
    obtain ⟨rfl, rfl⟩ : cfg.therapists.getD ((st.cursor + i) % cfg.therapists.length) "" = t ∧
        st.total (cfg.therapists.getD ((st.cursor + i) % cfg.therapists.length) "") * 1000 +
          st.roomUsage (cfg.therapists.getD ((st.cursor + i) % cfg.therapists.length) "") room = sc :=
      ⟨congrArg Prod.fst hinj, congrArg Prod.snd hinj⟩
    have hlen : 0 < cfg.therapists.length :=
      Nat.pos_of_ne_zero (by
        intro h0
        rw [List.mem_range, h0] at hi
        exact Nat.not_lt_zero i hi)
    have hidx : (st.cursor + i) % cfg.therapists.length < cfg.therapists.length :=
      Nat.mod_lt _ hlen
    refine ⟨hc, ?_, rfl⟩
    rw [List.getD_eq_getElem _ _ hidx]
    exact List.getElem_mem hidx
  · exact absurd hfi (by simp)

/-- The person-independent consequences of a successful `canAssignTherapist`:
UHC window respected, not a WFH day, day and slot generally available. -/
theorem canAssign_static {rules : TherapistRules} {t day slot room : String}
    {dayA : DayAssignments}
    (h : canAssignTherapist rules t day slot room dayA = true) :
    (room = "UHC" → (day = "Wed" ∧ slot = "AM") ∨ (day = "Thu" ∧ slot = "PM")) ∧
    day ∉ (rules t).wfhDays ∧ day ∈ (rules t).availableDays ∧
    slot ∈ (rules t).availableSlots := by
  rw [canAssignTherapist] at h
  by_cases h1 : room = "UHC" ∧ ¬((day = "Wed" ∧ slot = "AM") ∨ (day = "Thu" ∧ slot = "PM"))
  · rw [if_pos h1] at h; exact absurd h (by simp)
  · rw [if_neg h1] at h
    by_cases h2 : day ∈ (rules t).wfhDays
    · rw [if_pos h2] at h; exact absurd h (by simp)
    · rw [if_neg h2] at h
      by_cases h3 : day ∉ (rules t).availableDays ∨ slot ∉ (rules t).availableSlots
      · rw [if_pos h3] at h; exact absurd h (by simp)
      · push_neg at h1 h3
        exact ⟨h1, h2, h3.1, h3.2⟩

/-- A successful `canAssignTherapist` implies the therapist was not yet
occupying this slot on this day. -/
theorem canAssign_free {rules : TherapistRules} {t day slot room : String}
    {dayA : DayAssignments}
    (h : canAssignTherapist rules t day slot room dayA = true) :
    dayA t slot = false := by
  rw [canAssignTherapist] at h
  by_cases h1 : room = "UHC" ∧ ¬((day = "Wed" ∧ slot = "AM") ∨ (day = "Thu" ∧ slot = "PM"))
  · rw [if_pos h1] at h; exact absurd h (by simp)
  · rw [if_neg h1] at h
    by_cases h2 : day ∈ (rules t).wfhDays
    · rw [if_pos h2] at h; exact absurd h (by simp)
    · rw [if_neg h2] at h
      by_cases h3 : day ∉ (rules t).availableDays ∨ slot ∉ (rules t).availableSlots
      · rw [if_pos h3] at h; exact absurd h (by simp)
      · rw [if_neg h3] at h
        by_cases h4 : (rules t).maxConsecutiveSlotsPerDay = 1 ∧
            dayA t (if slot = "AM" then "PM" else "AM") = true
        · rw [if_pos h4] at h; exact absurd h (by simp)
        · rw [if_neg h4] at h
          by_cases h5 : dayA t slot = true
          · rw [if_pos h5] at h; exact absurd h (by simp)
          · simp only [Bool.not_eq_true] at h5
            exact h5

/-- Grid after a cell with no eligible therapist: the cell is written `""`. -/
theorem processCell_none_grid {cfg : Config} {rules : TherapistRules}
    {day slot room : String} {acc : GenState × DayAssignments}
    (h : chooseBest (eligibleTherapists cfg rules acc.1 acc.2 day slot room) = none) :
    (processCell cfg rules day slot room acc).1.grid =
      setCell acc.1.grid day slot room "" := by
  rw [processCell, h]

/-- Counters, cursor and day state are untouched when no therapist is eligible. -/
theorem processCell_none_rest {cfg : Config} {rules : TherapistRules}
    {day slot room : String} {acc : GenState × DayAssignments}
    (h : chooseBest (eligibleTherapists cfg rules acc.1 acc.2 day slot room) = none) :
    (processCell cfg rules day slot room acc).1.total = acc.1.total ∧
    (processCell cfg rules day slot room acc).1.roomUsage = acc.1.roomUsage ∧
    (processCell cfg rules day slot room acc).2 = acc.2 := by
  rw [processCell, h]
  exact ⟨rfl, rfl, rfl⟩

/-- Grid after a successful assignment: the chosen name is written in the cell. -/
theorem processCell_some_grid {cfg : Config} {rules : TherapistRules}
    {day slot room : String} {acc : GenState × DayAssignments} {t : String} {sc : Nat}
    (h : chooseBest (eligibleTherapists cfg rules acc.1 acc.2 day slot room) =
      some (t, sc)) :
    (processCell cfg rules day slot room acc).1.grid =
      setCell acc.1.grid day slot room t := by
  rw [processCell, h]

/-- Counter and occupancy updates of a successful assignment. -/
theorem processCell_some_rest {cfg : Config} {rules : TherapistRules}
    {day slot room : String} {acc : GenState × DayAssignments} {t : String} {sc : Nat}
    (h : chooseBest (eligibleTherapists cfg rules acc.1 acc.2 day slot room) =
      some (t, sc)) :
    (processCell cfg rules day slot room acc).1.total =
      (fun x => if x = t then acc.1.total x + 1 else acc.1.total x) ∧
    (processCell cfg rules day slot room acc).1.roomUsage =
      (fun x r => if x = t ∧ r = room then acc.1.roomUsage x r + 1
        else acc.1.roomUsage x r) ∧
    (processCell cfg rules day slot room acc).2 =
      (fun x s => if x = t ∧ s = slot then true else acc.2 x s) := by
  rw [processCell, h]
  exact ⟨rfl, rfl, rfl⟩

/-- The selected therapist of a cell satisfied `canAssignTherapist` for it and
is drawn from the configured therapist list. -/
theorem chooseBest_canAssign {cfg : Config} {rules : TherapistRules}
    {st : GenState} {dayA : DayAssignments} {day slot room : String}
    {t : String} {sc : Nat}
    (h : chooseBest (eligibleTherapists cfg rules st dayA day slot room) =
      some (t, sc)) :
    canAssignTherapist rules t day slot room dayA = true ∧ t ∈ cfg.therapists :=
  ⟨(mem_eligible (chooseBest_mem h)).1, (mem_eligible (chooseBest_mem h)).2.1⟩

theorem processCell_staticInv (cfg : Config) (rules : TherapistRules)
    (day slot room : String) (acc : GenState × DayAssignments)
    (h : staticInv rules acc.1.grid) :
    staticInv rules (processCell cfg rules day slot room acc).1.grid := by
  rcases hcb : chooseBest (eligibleTherapists cfg rules acc.1 acc.2 day slot room)
    with _ | ⟨t, sc⟩
  · rw [processCell_none_grid hcb]
    intro d s r hne
    by_cases hc : d = day ∧ s = slot ∧ r = room
    · obtain ⟨rfl, rfl, rfl⟩ := hc
      rw [setCell_same] at hne
      exact absurd rfl hne
    · rw [setCell_other _ _ _ _ _ hc] at hne ⊢
      exact h d s r hne
  · rw [processCell_some_grid hcb]
    intro d s r hne
    by_cases hc : d = day ∧ s = slot ∧ r = room
    · obtain ⟨rfl, rfl, rfl⟩ := hc
      rw [setCell_same]
      exact canAssign_static (chooseBest_canAssign hcb).1
    · rw [setCell_other _ _ _ _ _ hc] at hne ⊢
      exact h d s r hne

theorem processDay_staticInv (cfg : Config) (rules : TherapistRules)
    (st : GenState) (day : String) (h : staticInv rules st.grid) :
    staticInv rules (processDay cfg rules st day).grid := by
  rw [processDay]
  refine foldl_inv (P := fun acc : GenState × DayAssignments => staticInv rules acc.1.grid)
    _ _ _ h ?_
  intro acc s _ ha
  exact foldl_inv (P := fun acc : GenState × DayAssignments => staticInv rules acc.1.grid)
    _ _ _ ha (fun acc' r _ ha' => processCell_staticInv cfg rules day s r acc' ha')

theorem generate_staticInv (cfg : Config) (rules : TherapistRules) (c : Nat) :
    staticInv rules (generateAutoRoster cfg rules c).grid := by
  rw [generateAutoRoster]
  refine foldl_inv (P := fun st : GenState => staticInv rules st.grid) _ _ _ ?_ ?_
  · intro d s r hne
    exact absurd rfl hne
  · intro st d _ h
    exact processDay_staticInv cfg rules st d h

/-- C1: the UHC room-window hard bound.  Generation leaves the UHC cell empty
at every (day, slot) outside {(Wed, AM), (Thu, PM)} for every rule set, and a
manual drop targeting such a blocked UHC cell is rejected before any mutation,
with the whole grid unchanged. -/
theorem uhc_window_hard_bound :
    (∀ (rules : TherapistRules) (c : Nat) (day slot : String),
      ¬((day = "Wed" ∧ slot = "AM") ∨ (day = "Thu" ∧ slot = "PM")) →
      (generateAutoRoster cfg0 rules c).grid day slot "UHC" = "") ∧
    (∀ (g : Grid) (day slot name srcT : String)
      (loc : Option (String × String × String)),
      ¬((day = "Wed" ∧ slot = "AM") ∨ (day = "Thu" ∧ slot = "PM")) →
      onDropCell g day slot "UHC" name srcT loc = g) := by
  constructor
  · intro rules c day slot hw
    by_contra hne
    exact hw ((generate_staticInv cfg0 rules c day slot "UHC" hne).1 rfl)
  · intro g day slot name srcT loc hw
    refine onDropCell_blocked g day slot "UHC" name srcT loc ?_
    rw [isUHCBlocked, if_pos rfl]
    exact decide_eq_true hw

/-- Closed witness for C1 at (Mon, AM): generation leaves UHC empty and a drop
is rejected. -/
theorem uhc_window_hard_bound_witness :
    ¬((("Mon" : String) = "Wed" ∧ ("AM" : String) = "AM") ∨
      (("Mon" : String) = "Thu" ∧ ("AM" : String) = "PM")) ∧
    (generateAutoRoster cfg0 defaultAvailability 0).grid "Mon" "AM" "UHC" = "" ∧
    onDropCell (fun _ _ _ => "") "Mon" "AM" "UHC" "Dominic Yeo" "list" none =
      (fun _ _ _ => "") :=
  ⟨by decide,
   uhc_window_hard_bound.1 defaultAvailability 0 "Mon" "AM" (by decide),
   uhc_window_hard_bound.2 (fun _ _ _ => "") "Mon" "AM" "Dominic Yeo" "list" none
     (by decide)⟩

/-- C3: WFH precedence — if a day is among a person's wfhDays, generation
never assigns that person anywhere on that day, for every rule set (in
particular even when the day also appears in availableDays). -/
theorem wfh_precedence (rules : TherapistRules) (c : Nat) (p : String)
    (hp : p ≠ "") (day : String) (hw : day ∈ (rules p).wfhDays) :
    ∀ slot room, (generateAutoRoster cfg0 rules c).grid day slot room ≠ p := by
  intro slot room he
  have hs := generate_staticInv cfg0 rules c day slot room (by rw [he]; exact hp)
  rw [he] at hs
  exact hs.2.1 hw

/-- Closed witness for C3: under `wfhMonRules` (Mon is both available and WFH)
Dominic Yeo does not hold Mon AM Room A. -/
theorem wfh_precedence_witness :
    ("Dominic Yeo" : String) ≠ "" ∧
    "Mon" ∈ (wfhMonRules "Dominic Yeo").wfhDays ∧
    (generateAutoRoster cfg0 wfhMonRules 0).grid "Mon" "AM" "Room A" ≠
      "Dominic Yeo" :=
  ⟨by decide, by decide,
   wfh_precedence wfhMonRules 0 "Dominic Yeo" (by decide) "Mon" (by decide)
     "AM" "Room A"⟩

/-- C4: greedy selection.  Whenever the eligibility list of a cell is
non-empty, the person written into the cell is one with minimal score
`total × 1000 + perRoom` among the eligible, and among equal minimal scores
the one encountered earliest in the scan order of the eligibility pass: the
list decomposes as `l₁ ++ (p, sc) :: l₂` with every entry of `l₁` scoring
strictly higher and every entry anywhere scoring at least `sc`. -/
theorem greedy_selection (rules : TherapistRules) (st : GenState)
    (dayA : DayAssignments) (day slot room : String)
    (h : eligibleTherapists cfg0 rules st dayA day slot room ≠ []) :
    ∃ p sc l₁ l₂,
      eligibleTherapists cfg0 rules st dayA day slot room = l₁ ++ (p, sc) :: l₂ ∧
      (∀ q ∈ eligibleTherapists cfg0 rules st dayA day slot room, sc ≤ q.2) ∧
      (∀ q ∈ l₁, sc < q.2) ∧
      (processCell cfg0 rules day slot room (st, dayA)).1.grid day slot room = p := by
  obtain ⟨p, sc, l₁, l₂, hdec, hchoose, hmin, hstrict⟩ := chooseBest_spec h
  refine ⟨p, sc, l₁, l₂, hdec, hmin, hstrict, ?_⟩
  rw [@processCell_some_grid cfg0 rules day slot room (st, dayA) p sc hchoose,
    setCell_same]

/-- Closed witness for C4 at a concrete state with a non-empty eligibility
list (all ten therapists eligible for Mon AM Room A from the start state). -/
theorem greedy_selection_witness :
    eligibleTherapists cfg0 defaultAvailability (startState 0) (fun _ _ => false)
      "Mon" "AM" "Room A" ≠ [] ∧
    ∃ p sc l₁ l₂,
      eligibleTherapists cfg0 defaultAvailability (startState 0) (fun _ _ => false)
        "Mon" "AM" "Room A" = l₁ ++ (p, sc) :: l₂ ∧
      (∀ q ∈ eligibleTherapists cfg0 defaultAvailability (startState 0)
        (fun _ _ => false) "Mon" "AM" "Room A", sc ≤ q.2) ∧
      (∀ q ∈ l₁, sc < q.2) ∧
      (processCell cfg0 defaultAvailability "Mon" "AM" "Room A"
        (startState 0, fun _ _ => false)).1.grid "Mon" "AM" "Room A" = p :=
  ⟨by decide,
   greedy_selection defaultAvailability (startState 0) (fun _ _ => false)
     "Mon" "AM" "Room A" (by decide)⟩

/-! ### No double-booking -/

/-- `processCell` only writes its own cell. -/
theorem processCell_frame (cfg : Config) (rules : TherapistRules)
    (day slot room : String) (acc : GenState × DayAssignments) (d s r : String)
    (hc : ¬(d = day ∧ s = slot ∧ r = room)) :
    (processCell cfg rules day slot room acc).1.grid d s r = acc.1.grid d s r := by
  rcases hcb : chooseBest (eligibleTherapists cfg rules acc.1 acc.2 day slot room)
    with _ | ⟨t, sc⟩
  · rw [processCell_none_grid hcb, setCell_other _ _ _ _ _ hc]
  · rw [processCell_some_grid hcb, setCell_other _ _ _ _ _ hc]

/-- `processDay` only writes cells of its own day. -/
theorem processDay_frame (cfg : Config) (rules : TherapistRules) (st : GenState)
    (day : String) (d s r : String) (hd : d ≠ day) :
    (processDay cfg rules st day).grid d s r = st.grid d s r := by
  rw [processDay]
  refine foldl_inv
    (P := fun acc : GenState × DayAssignments => acc.1.grid d s r = st.grid d s r)
    _ _ _ rfl ?_
  intro acc s' _ ha
  refine foldl_inv
    (P := fun acc : GenState × DayAssignments => acc.1.grid d s r = st.grid d s r)
    _ _ _ ha ?_
  intro acc' r' _ ha'
  rw [processCell_frame cfg rules day s' r' acc' d s r
    (fun hc => hd hc.1)]
  exact ha'

theorem processCell_dayInv (cfg : Config) (rules : TherapistRules)
    (day slot room : String) (acc : GenState × DayAssignments)
    (h : dayInv day acc.1.grid acc.2) :
    dayInv day (processCell cfg rules day slot room acc).1.grid
      (processCell cfg rules day slot room acc).2 := by
  rcases hcb : chooseBest (eligibleTherapists cfg rules acc.1 acc.2 day slot room)
    with _ | ⟨t₀, sc⟩
  · rw [processCell_none_grid hcb, (processCell_none_rest hcb).2.2]
    intro t ht s
    constructor
    · intro hfalse r
      by_cases hc : day = day ∧ s = slot ∧ r = room
      · obtain ⟨-, rfl, rfl⟩ := hc
        rw [setCell_same]
        exact fun he => ht he.symm
      · rw [setCell_other _ _ _ _ _ hc]
        exact (h t ht s).1 hfalse r
    · intro r₁ r₂ h₁ h₂
      have get : ∀ r', setCell acc.1.grid day slot room "" day s r' = t →
          acc.1.grid day s r' = t := by
        intro r' he
        by_cases hc : day = day ∧ s = slot ∧ r' = room
        · obtain ⟨-, rfl, rfl⟩ := hc
          rw [setCell_same] at he
          exact absurd he.symm ht
        · rwa [setCell_other _ _ _ _ _ hc] at he
      exact (h t ht s).2 r₁ r₂ (get r₁ h₁) (get r₂ h₂)
  · have hfree : acc.2 t₀ slot = false := canAssign_free (chooseBest_canAssign hcb).1
    rw [processCell_some_grid hcb, (processCell_some_rest hcb).2.2]
    intro t ht s
    constructor
    · intro hfalse r
      simp only at hfalse
      by_cases hts : t = t₀ ∧ s = slot
      · rw [if_pos hts] at hfalse
        exact absurd hfalse (by simp)
      · rw [if_neg hts] at hfalse
        by_cases hc : day = day ∧ s = slot ∧ r = room
        · obtain ⟨-, rfl, rfl⟩ := hc
          rw [setCell_same]
          intro he
          exact hts ⟨he.symm, rfl⟩
        · rw [setCell_other _ _ _ _ _ hc]
          exact (h t ht s).1 hfalse r
    · intro r₁ r₂ h₁ h₂
      by_cases hts : t = t₀ ∧ s = slot
      · have honly : ∀ r', setCell acc.1.grid day slot room t₀ day s r' = t →
            r' = room := by
          intro r' he
          by_cases hc : day = day ∧ s = slot ∧ r' = room
          · exact hc.2.2
          · rw [setCell_other _ _ _ _ _ hc] at he
            rw [hts.2, hts.1] at he
            exact absurd he ((h t₀ (hts.1 ▸ ht) slot).1 hfree r')
        rw [honly r₁ h₁, honly r₂ h₂]
      · have get : ∀ r', setCell acc.1.grid day slot room t₀ day s r' = t →
            acc.1.grid day s r' = t := by
          intro r' he
          by_cases hc : day = day ∧ s = slot ∧ r' = room
          · obtain ⟨-, rfl, rfl⟩ := hc
            rw [setCell_same] at he
            exact absurd ⟨he.symm, rfl⟩ hts
          · rwa [setCell_other _ _ _ _ _ hc] at he
        exact (h t ht s).2 r₁ r₂ (get r₁ h₁) (get r₂ h₂)

/-- After one day of generation over an initially empty day, every
(therapist, slot) of that day occupies at most one room. -/
theorem processDay_atMostOne (cfg : Config) (rules : TherapistRules)
    (st : GenState) (day : String) (hempty : ∀ s r, st.grid day s r = "") :
    ∀ t, t ≠ "" → ∀ s r₁ r₂, (processDay cfg rules st day).grid day s r₁ = t →
      (processDay cfg rules st day).grid day s r₂ = t → r₁ = r₂ := by
  have hstart : dayInv day st.grid (fun _ _ => false) := by
    intro t ht s
    refine ⟨fun _ r => ?_, fun r₁ r₂ h₁ h₂ => ?_⟩
    · rw [hempty s r]
      exact fun he => ht he.symm
    · rw [hempty s r₁] at h₁
      exact absurd h₁.symm ht
  have hres : dayInv day (processDay cfg rules st day).grid
      ((cfg.slots.foldl
        (fun acc slot =>
          cfg.rooms.foldl (fun a room => processCell cfg rules day slot room a) acc)
        (st, fun _ _ => false)).2) := by
    rw [processDay]
    exact foldl_inv
      (P := fun acc : GenState × DayAssignments => dayInv day acc.1.grid acc.2)
      _ _ _ hstart
      (fun acc s' _ ha =>
        foldl_inv
          (P := fun acc : GenState × DayAssignments => dayInv day acc.1.grid acc.2)
          _ _ _ ha
          (fun acc' r' _ ha' => processCell_dayInv cfg rules day s' r' acc' ha'))
  intro t ht s r₁ r₂ h₁ h₂
  exact (hres t ht s).2 r₁ r₂ h₁ h₂

/-- Folding generation over a duplicate-free list of days, starting from a grid
empty on those days, leaves every (person, day, slot) in at most one room. -/
theorem foldl_days_atMostOne (cfg : Config) (rules : TherapistRules) :
    ∀ (l : List String) (st : GenState), l.Nodup →
      (∀ d ∈ l, ∀ s r, st.grid d s r = "") →
      ∀ d ∈ l, ∀ t, t ≠ "" → ∀ s r₁ r₂,
        (l.foldl (processDay cfg rules) st).grid d s r₁ = t →
        (l.foldl (processDay cfg rules) st).grid d s r₂ = t → r₁ = r₂ := by
  intro l
  induction l with
  | nil => intro st _ _ d hd; exact absurd hd (List.not_mem_nil d)
  | cons d₀ rest ih =>
    intro st hnd hempty d hd t ht s r₁ r₂ h₁ h₂
    have hnotmem : d₀ ∉ rest := (List.nodup_cons.1 hnd).1
    have hfoldl : (d₀ :: rest).foldl (processDay cfg rules) st =
        rest.foldl (processDay cfg rules) (processDay cfg rules st d₀) := rfl
    rw [hfoldl] at h₁ h₂
    rcases List.mem_cons.1 hd with rfl | hd'
    · have hfr : ∀ s' r',
          (rest.foldl (processDay cfg rules) (processDay cfg rules st d)).grid d s' r' =
          (processDay cfg rules st d).grid d s' r' := by
        intro s' r'
        refine foldl_inv
          (P := fun st' : GenState =>
            st'.grid d s' r' = (processDay cfg rules st d).grid d s' r')
          _ _ _ rfl ?_
        intro st' a ha hP
        rw [processDay_frame cfg rules st' a d s' r'
          (fun he => hnotmem (he ▸ ha))]
        exact hP
      rw [hfr s r₁] at h₁
      rw [hfr s r₂] at h₂
      exact processDay_atMostOne cfg rules st d (hempty d (List.mem_cons_self d rest))
        t ht s r₁ r₂ h₁ h₂
    · refine ih (processDay cfg rules st d₀) (List.nodup_cons.1 hnd).2 ?_ d hd' t ht
        s r₁ r₂ h₁ h₂
      intro d' hd'' s' r'
      rw [processDay_frame cfg rules st d₀ d' s' r'
        (fun he => hnotmem (he ▸ hd''))]
      exact hempty d' (List.mem_cons_of_mem d₀ hd'') s' r'

/-- C2: no double-booking in generated grids.  For every rule set, person, day
and slot, at most one room of the generated grid holds that person. -/
theorem no_double_booking (rules : TherapistRules) (c : Nat) (t : String)
    (ht : t ≠ "") (d s r₁ r₂ : String)
    (h₁ : (generateAutoRoster cfg0 rules c).grid d s r₁ = t)
    (h₂ : (generateAutoRoster cfg0 rules c).grid d s r₂ = t) : r₁ = r₂ := by
  rw [generateAutoRoster] at h₁ h₂
  by_cases hd : d ∈ cfg0.days
  · exact foldl_days_atMostOne cfg0 rules cfg0.days (startState c) (by decide)
      (fun _ _ _ _ => rfl) d hd t ht s r₁ r₂ h₁ h₂
  · have huntouched :
        (cfg0.days.foldl (processDay cfg0 rules) (startState c)).grid d s r₁ = "" := by
      refine foldl_inv (P := fun st : GenState => st.grid d s r₁ = "") _ _ _ rfl ?_
      intro st a ha hP
      rw [processDay_frame cfg0 rules st a d s r₁ (fun he => hd (he ▸ ha))]
      exact hP
    rw [h₁] at huntouched
    exact absurd huntouched ht

set_option maxRecDepth 100000

/-- Closed witness for C2 at the generated grid of the default rules: Mon AM
Room A holds Dominic Yeo, and the claim applied at the same room twice. -/
theorem no_double_booking_witness :
    ("Dominic Yeo" : String) ≠ "" ∧
    (generateAutoRoster cfg0 defaultAvailability 0).grid "Mon" "AM" "Room A" =
      "Dominic Yeo" ∧
    ("Room A" : String) = "Room A" :=
  ⟨by decide, by decide,
   no_double_booking defaultAvailability 0 "Dominic Yeo" (by decide)
     "Mon" "AM" "Room A" "Room A" (by decide) (by decide)⟩


/-! ### Agreement of incremental and recomputed fairness counters -/

theorem foldl_flatMap {α β γ : Type _} (f : γ → β → γ) (g : α → List β) :
    ∀ (l : List α) (init : γ),
      (l.flatMap g).foldl f init = l.foldl (fun acc a => (g a).foldl f acc) init := by
  intro l
  induction l with
  | nil => intro init; rfl
  | cons x l ih =>
    intro init
    rw [List.flatMap_cons, List.foldl_append, List.foldl_cons, ih]

theorem foldl_fun_congr {α β : Type _} {f f' : β → α → β} (h : ∀ b a, f b a = f' b a) :
    ∀ (l : List α) (b : β), l.foldl f b = l.foldl f' b := by
  intro l
  induction l with
  | nil => intro b; rfl
  | cons x l ih =>
    intro b
    rw [List.foldl_cons, List.foldl_cons, h b x, ih]

/-- The nested scan of `calculateTherapistCounts` is the fold over the flat
cell list. -/
theorem calculateTherapistCounts_eq_flat (cfg : Config) (g : Grid) :
    calculateTherapistCounts cfg g =
      (cellsOf cfg).foldl (fun acc c => countCell cfg g acc c.1 c.2.1 c.2.2)
        ⟨fun _ => 0, fun _ _ => 0⟩ := by
  rw [calculateTherapistCounts, cellsOf, foldl_flatMap]
  refine (foldl_fun_congr ?_ cfg.days (⟨fun _ => 0, fun _ _ => 0⟩ : TherapistCounts)).symm
  intro acc d
  rw [foldl_flatMap]
  refine foldl_fun_congr ?_ cfg.slots acc
  intro acc s
  rw [List.foldl_map]

/-- Effect of one count-scan step on a total. -/
theorem countCell_totalSlots (cfg : Config) (g : Grid) (acc : TherapistCounts)
    (d s r t : String) :
    (countCell cfg g acc d s r).totalSlots t = acc.totalSlots t +
      (if g d s r = t ∧ t ≠ "" ∧ t ∈ cfg.therapists then 1 else 0) := by
  rw [countCell]
  by_cases ha : g d s r ≠ "" ∧ g d s r ∈ cfg.therapists
  · rw [if_pos ha]
    show (if t = g d s r then acc.totalSlots t + 1 else acc.totalSlots t) = _
    by_cases ht : t = g d s r
    · rw [if_pos ht, if_pos (show g d s r = t ∧ t ≠ "" ∧ t ∈ cfg.therapists from
        ⟨ht.symm, ht ▸ ha.1, ht ▸ ha.2⟩)]
    · rw [if_neg ht, if_neg (show ¬(g d s r = t ∧ t ≠ "" ∧ t ∈ cfg.therapists) from
        fun hcc => ht hcc.1.symm)]
      omega
  · rw [if_neg ha, if_neg (show ¬(g d s r = t ∧ t ≠ "" ∧ t ∈ cfg.therapists) from
      fun hcc => ha ⟨hcc.1 ▸ hcc.2.1, hcc.1 ▸ hcc.2.2⟩)]
    omega

/-- Effect of one count-scan step on a per-room count. -/
theorem countCell_roomDistribution (cfg : Config) (g : Grid) (acc : TherapistCounts)
    (d s r t r' : String) :
    (countCell cfg g acc d s r).roomDistribution t r' = acc.roomDistribution t r' +
      (if g d s r = t ∧ t ≠ "" ∧ t ∈ cfg.therapists ∧ r' = r then 1 else 0) := by
  rw [countCell]
  by_cases ha : g d s r ≠ "" ∧ g d s r ∈ cfg.therapists
  · rw [if_pos ha]
    show (if t = g d s r ∧ r' = r then acc.roomDistribution t r' + 1
      else acc.roomDistribution t r') = _
    by_cases ht : t = g d s r ∧ r' = r
    · rw [if_pos ht, if_pos (show g d s r = t ∧ t ≠ "" ∧ t ∈ cfg.therapists ∧ r' = r from
        ⟨ht.1.symm, ht.1 ▸ ha.1, ht.1 ▸ ha.2, ht.2⟩)]
    · rw [if_neg ht, if_neg (show ¬(g d s r = t ∧ t ≠ "" ∧ t ∈ cfg.therapists ∧ r' = r) from
        fun hcc => ht ⟨hcc.1.symm, hcc.2.2.2⟩)]
      omega
  · rw [if_neg ha, if_neg (show ¬(g d s r = t ∧ t ≠ "" ∧ t ∈ cfg.therapists ∧ r' = r) from
      fun hcc => ha ⟨hcc.1 ▸ hcc.2.1, hcc.1 ▸ hcc.2.2.1⟩)]
    omega

/-- Fold characterization of the scanned totals as a cell count. -/
theorem flat_totalSlots (cfg : Config) (g : Grid) (t : String) :
    ∀ (cells : List (String × String × String)) (acc : TherapistCounts),
      ((cells.foldl (fun acc c => countCell cfg g acc c.1 c.2.1 c.2.2) acc).totalSlots t) =
        acc.totalSlots t +
          cells.countP (fun c => decide (g c.1 c.2.1 c.2.2 = t ∧ t ≠ "" ∧ t ∈ cfg.therapists)) := by
  intro cells
  induction cells with
  | nil => intro acc; simp [List.countP_nil]
  | cons c cells ih =>
    intro acc
    rw [List.foldl_cons, ih, List.countP_cons, countCell_totalSlots]
    by_cases hp : g c.1 c.2.1 c.2.2 = t ∧ t ≠ "" ∧ t ∈ cfg.therapists
    · rw [if_pos hp, if_pos (by exact decide_eq_true hp)]
      omega
    · rw [if_neg hp, if_neg (by simpa using hp)]
      omega

/-- Fold characterization of the scanned per-room counts as a cell count. -/
theorem flat_roomDistribution (cfg : Config) (g : Grid) (t r' : String) :
    ∀ (cells : List (String × String × String)) (acc : TherapistCounts),
      ((cells.foldl (fun acc c => countCell cfg g acc c.1 c.2.1 c.2.2) acc).roomDistribution t r') =
        acc.roomDistribution t r' +
          cells.countP (fun c =>
            decide (g c.1 c.2.1 c.2.2 = t ∧ t ≠ "" ∧ t ∈ cfg.therapists ∧ r' = c.2.2)) := by
  intro cells
  induction cells with
  | nil => intro acc; simp [List.countP_nil]
  | cons c cells ih =>
    intro acc
    rw [List.foldl_cons, ih, List.countP_cons, countCell_roomDistribution]
    by_cases hp : g c.1 c.2.1 c.2.2 = t ∧ t ≠ "" ∧ t ∈ cfg.therapists ∧ r' = c.2.2
    · rw [if_pos hp, if_pos (by exact decide_eq_true hp)]
      omega
    · rw [if_neg hp, if_neg (by simpa using hp)]
      omega

theorem countP_congr_except {α : Type _} (p q : α → Bool) (a : α) :
    ∀ (l : List α), l.Nodup → a ∈ l → (∀ b ∈ l, b ≠ a → p b = q b) → p a = false →
      l.countP q = l.countP p + (if q a then 1 else 0) := by
  intro l
  induction l with
  | nil => intro _ ha; exact absurd ha (List.not_mem_nil a)
  | cons b l ih =>
    intro hnd ha hcong hpa
    rw [List.countP_cons, List.countP_cons]
    by_cases hab : b = a
    · subst hab
      have hbl : b ∉ l := (List.nodup_cons.1 hnd).1
      have heq : l.countP p = l.countP q :=
        List.countP_congr (fun x hx => by
          rw [hcong x (List.mem_cons_of_mem b hx) (fun he => hbl (he ▸ hx))])
      rw [heq, hpa, if_neg Bool.false_ne_true]
      omega
    · have ha' : a ∈ l := by
        rcases List.mem_cons.1 ha with he | ha'
        · exact absurd he.symm hab
        · exact ha'
      have hpb : p b = q b := hcong b (List.mem_cons_self b l) hab
      rw [ih (List.nodup_cons.1 hnd).2 ha'
        (fun x hx hxa => hcong x (List.mem_cons_of_mem b hx) hxa) hpa, hpb]
      omega

/-- Writing a fresh name into a previously empty calendar cell bumps the
rescanned total of exactly that name by one. -/
theorem calc_setCell_totalSlots (cfg : Config) (g : Grid) (day slot room v : String)
    (hmem : (day, slot, room) ∈ cellsOf cfg) (hnd : (cellsOf cfg).Nodup)
    (h0 : g day slot room = "") (hv : v ≠ "") (hvm : v ∈ cfg.therapists) (x : String) :
    (calculateTherapistCounts cfg (setCell g day slot room v)).totalSlots x =
      (calculateTherapistCounts cfg g).totalSlots x + (if x = v then 1 else 0) := by
  rw [calculateTherapistCounts_eq_flat, calculateTherapistCounts_eq_flat,
    flat_totalSlots, flat_totalSlots]
  have hcong : ∀ b ∈ cellsOf cfg, b ≠ (day, slot, room) →
      (fun c : String × String × String =>
        decide (g c.1 c.2.1 c.2.2 = x ∧ x ≠ "" ∧ x ∈ cfg.therapists)) b =
      (fun c : String × String × String =>
        decide (setCell g day slot room v c.1 c.2.1 c.2.2 = x ∧ x ≠ "" ∧
          x ∈ cfg.therapists)) b := by
    intro b _ hb
    rcases b with ⟨b1, b2, b3⟩
    simp only
    rw [setCell_other g day slot room v (show ¬(b1 = day ∧ b2 = slot ∧ b3 = room) by
      intro hc
      obtain ⟨e1, e2, e3⟩ := hc
      exact hb (by rw [e1, e2, e3]))]
  have hpa : (fun c : String × String × String =>
      decide (g c.1 c.2.1 c.2.2 = x ∧ x ≠ "" ∧ x ∈ cfg.therapists)) (day, slot, room) =
      false := by
    simp only
    refine decide_eq_false ?_
    intro hcc
    exact hcc.2.1 (h0 ▸ hcc.1.symm)
  rw [countP_congr_except _ _ (day, slot, room) (cellsOf cfg) hnd hmem hcong hpa]
  show _ + (_ + (if decide (setCell g day slot room v day slot room = x ∧ x ≠ "" ∧
    x ∈ cfg.therapists) = true then 1 else 0)) = _
  rw [setCell_same]
  by_cases hx : x = v
  · subst hx
    rw [decide_eq_true (show x = x ∧ x ≠ "" ∧ x ∈ cfg.therapists from ⟨rfl, hv, hvm⟩),
      if_pos (rfl : x = x), if_pos (rfl : true = true)]
    omega
  · rw [decide_eq_false (show ¬(v = x ∧ x ≠ "" ∧ x ∈ cfg.therapists) from
      fun hcc => hx hcc.1.symm), if_neg hx, if_neg Bool.false_ne_true]
    omega

/-- Writing a fresh name into a previously empty calendar cell bumps the
rescanned per-room count of exactly that (name, room) pair by one. -/
theorem calc_setCell_roomDistribution (cfg : Config) (g : Grid)
    (day slot room v : String)
    (hmem : (day, slot, room) ∈ cellsOf cfg) (hnd : (cellsOf cfg).Nodup)
    (h0 : g day slot room = "") (hv : v ≠ "") (hvm : v ∈ cfg.therapists)
    (x r' : String) :
    (calculateTherapistCounts cfg (setCell g day slot room v)).roomDistribution x r' =
      (calculateTherapistCounts cfg g).roomDistribution x r' +
        (if x = v ∧ r' = room then 1 else 0) := by
  rw [calculateTherapistCounts_eq_flat, calculateTherapistCounts_eq_flat,
    flat_roomDistribution, flat_roomDistribution]
  have hcong : ∀ b ∈ cellsOf cfg, b ≠ (day, slot, room) →
      (fun c : String × String × String =>
        decide (g c.1 c.2.1 c.2.2 = x ∧ x ≠ "" ∧ x ∈ cfg.therapists ∧ r' = c.2.2)) b =
      (fun c : String × String × String =>
        decide (setCell g day slot room v c.1 c.2.1 c.2.2 = x ∧ x ≠ "" ∧
          x ∈ cfg.therapists ∧ r' = c.2.2)) b := by
    intro b _ hb
    rcases b with ⟨b1, b2, b3⟩
    simp only
    rw [setCell_other g day slot room v (show ¬(b1 = day ∧ b2 = slot ∧ b3 = room) by
      intro hc
      obtain ⟨e1, e2, e3⟩ := hc
      exact hb (by rw [e1, e2, e3]))]
  have hpa : (fun c : String × String × String =>
      decide (g c.1 c.2.1 c.2.2 = x ∧ x ≠ "" ∧ x ∈ cfg.therapists ∧ r' = c.2.2))
        (day, slot, room) = false := by
    simp only
    refine decide_eq_false ?_
    intro hcc
    exact hcc.2.1 (h0 ▸ hcc.1.symm)
  rw [countP_congr_except _ _ (day, slot, room) (cellsOf cfg) hnd hmem hcong hpa]
  show _ + (_ + (if decide (setCell g day slot room v day slot room = x ∧ x ≠ "" ∧
    x ∈ cfg.therapists ∧ r' = room) = true then 1 else 0)) = _
  rw [setCell_same]
  by_cases hx : x = v ∧ r' = room
  · rw [decide_eq_true (show v = x ∧ x ≠ "" ∧ x ∈ cfg.therapists ∧ r' = room from
      ⟨hx.1.symm, hx.1 ▸ hv, hx.1 ▸ hvm, hx.2⟩),
      if_pos hx, if_pos (rfl : true = true)]
    omega
  · rw [decide_eq_false (show ¬(v = x ∧ x ≠ "" ∧ x ∈ cfg.therapists ∧ r' = room) from
      fun hcc => hx ⟨hcc.1.symm, hcc.2.2.2⟩), if_neg hx, if_neg Bool.false_ne_true]
    omega

theorem mem_cellsOf {cfg : Config} {d s r : String} (hd : d ∈ cfg.days)
    (hs : s ∈ cfg.slots) (hr : r ∈ cfg.rooms) : (d, s, r) ∈ cellsOf cfg := by
  rw [cellsOf, List.mem_flatMap]
  exact ⟨d, hd, by
    rw [List.mem_flatMap]
    exact ⟨s, hs, List.mem_map.2 ⟨r, hr, rfl⟩⟩⟩

theorem processCell_countsAgree (cfg : Config) (rules : TherapistRules)
    (day slot room : String) (acc : GenState × DayAssignments)
    (hd : day ∈ cfg.days) (hs : slot ∈ cfg.slots) (hr : room ∈ cfg.rooms)
    (hnd : (cellsOf cfg).Nodup) (hemp : "" ∉ cfg.therapists)
    (h0 : acc.1.grid day slot room = "") (h : countsAgree cfg acc.1) :
    countsAgree cfg (processCell cfg rules day slot room acc).1 := by
  rcases hcb : chooseBest (eligibleTherapists cfg rules acc.1 acc.2 day slot room)
    with _ | ⟨t₀, sc⟩
  · have hg : (processCell cfg rules day slot room acc).1.grid = acc.1.grid := by
      rw [processCell_none_grid hcb, setCell_self_empty h0]
    obtain ⟨htot, hru, -⟩ := processCell_none_rest hcb
    exact ⟨fun t => by rw [hg, htot]; exact h.1 t,
      fun t r => by rw [hg, hru]; exact h.2 t r⟩
  · obtain ⟨hca, htm⟩ := chooseBest_canAssign hcb
    have ht0 : t₀ ≠ "" := fun he => hemp (he ▸ htm)
    have hg : (processCell cfg rules day slot room acc).1.grid =
        setCell acc.1.grid day slot room t₀ := processCell_some_grid hcb
    obtain ⟨htot, hru, -⟩ := processCell_some_rest hcb
    constructor
    · intro t
      rw [hg, htot,
        calc_setCell_totalSlots cfg acc.1.grid day slot room t₀
          (mem_cellsOf hd hs hr) hnd h0 ht0 htm t]
      show (if t = t₀ then acc.1.total t + 1 else acc.1.total t) = _
      by_cases ht : t = t₀
      · rw [if_pos ht, if_pos ht, h.1 t]
      · rw [if_neg ht, if_neg ht, h.1 t]
        omega
    · intro t r
      rw [hg, hru,
        calc_setCell_roomDistribution cfg acc.1.grid day slot room t₀
          (mem_cellsOf hd hs hr) hnd h0 ht0 htm t r]
      show (if t = t₀ ∧ r = room then acc.1.roomUsage t r + 1 else acc.1.roomUsage t r) = _
      by_cases ht : t = t₀ ∧ r = room
      · rw [if_pos ht, if_pos ht, h.2 t r]
      · rw [if_neg ht, if_neg ht, h.2 t r]
        omega

/-- The rooms fold of one (day, slot) does not touch cells of other
(day, slot) pairs. -/
theorem rooms_fold_frame (cfg : Config) (rules : TherapistRules)
    (day slot : String) (lr : List String) (acc : GenState × DayAssignments)
    (d s r : String) (h : ¬(d = day ∧ s = slot)) :
    ((lr.foldl (fun a r' => processCell cfg rules day slot r' a) acc)).1.grid d s r =
      acc.1.grid d s r := by
  refine foldl_inv
    (P := fun a : GenState × DayAssignments => a.1.grid d s r = acc.1.grid d s r)
    _ _ _ rfl ?_
  intro a r' _ ha
  rw [processCell_frame cfg rules day slot r' a d s r (fun hc => h ⟨hc.1, hc.2.1⟩)]
  exact ha

theorem cnt_rooms (cfg : Config) (rules : TherapistRules) (day slot : String)
    (hd : day ∈ cfg.days) (hs : slot ∈ cfg.slots)
    (hnd : (cellsOf cfg).Nodup) (hemp : "" ∉ cfg.therapists) :
    ∀ (lr : List String), lr.Nodup → (∀ r ∈ lr, r ∈ cfg.rooms) →
      ∀ (acc : GenState × DayAssignments),
        (∀ r ∈ lr, acc.1.grid day slot r = "") → countsAgree cfg acc.1 →
        countsAgree cfg
          ((lr.foldl (fun a r => processCell cfg rules day slot r a) acc)).1 := by
  intro lr
  induction lr with
  | nil => intro _ _ acc _ h; exact h
  | cons r₀ rest ih =>
    intro hlnd hmem acc hempty h
    rw [List.foldl_cons]
    have hstep := processCell_countsAgree cfg rules day slot r₀ acc hd hs
      (hmem r₀ (List.mem_cons_self r₀ rest)) hnd hemp
      (hempty r₀ (List.mem_cons_self r₀ rest)) h
    refine ih (List.nodup_cons.1 hlnd).2
      (fun r hr => hmem r (List.mem_cons_of_mem r₀ hr))
      (processCell cfg rules day slot r₀ acc) ?_ hstep
    intro r hr
    rw [processCell_frame cfg rules day slot r₀ acc day slot r
      (fun hc => (List.nodup_cons.1 hlnd).1 (hc.2.2 ▸ hr))]
    exact hempty r (List.mem_cons_of_mem r₀ hr)

theorem cnt_slots (cfg : Config) (rules : TherapistRules) (day : String)
    (hd : day ∈ cfg.days) (hnd : (cellsOf cfg).Nodup) (hemp : "" ∉ cfg.therapists)
    (hnR : cfg.rooms.Nodup) :
    ∀ (ls : List String), ls.Nodup → (∀ s ∈ ls, s ∈ cfg.slots) →
      ∀ (acc : GenState × DayAssignments),
        (∀ s ∈ ls, ∀ r, acc.1.grid day s r = "") → countsAgree cfg acc.1 →
        countsAgree cfg
          ((ls.foldl
            (fun acc slot =>
              cfg.rooms.foldl (fun a room => processCell cfg rules day slot room a) acc)
            acc)).1 := by
  intro ls
  induction ls with
  | nil => intro _ _ acc _ h; exact h
  | cons s₀ rest ih =>
    intro hlnd hmem acc hempty h
    rw [List.foldl_cons]
    have hstep := cnt_rooms cfg rules day s₀ hd (hmem s₀ (List.mem_cons_self s₀ rest))
      hnd hemp cfg.rooms hnR (fun r hr => hr) acc
      (fun r _ => hempty s₀ (List.mem_cons_self s₀ rest) r) h
    refine ih (List.nodup_cons.1 hlnd).2
      (fun s hscur => hmem s (List.mem_cons_of_mem s₀ hscur))
      _ ?_ hstep
    intro s hscur r
    rw [rooms_fold_frame cfg rules day s₀ cfg.rooms acc day s r
      (fun hc => (List.nodup_cons.1 hlnd).1 (hc.2 ▸ hscur))]
    exact hempty s (List.mem_cons_of_mem s₀ hscur) r

theorem cnt_days (cfg : Config) (rules : TherapistRules)
    (hnd : (cellsOf cfg).Nodup) (hemp : "" ∉ cfg.therapists)
    (hnR : cfg.rooms.Nodup) (hnS : cfg.slots.Nodup) :
    ∀ (ld : List String), ld.Nodup → (∀ d ∈ ld, d ∈ cfg.days) →
      ∀ (st : GenState), (∀ d ∈ ld, ∀ s r, st.grid d s r = "") →
        countsAgree cfg st →
        countsAgree cfg (ld.foldl (processDay cfg rules) st) := by
  intro ld
  induction ld with
  | nil => intro _ _ st _ h; exact h
  | cons d₀ rest ih =>
    intro hlnd hmem st hempty h
    rw [List.foldl_cons]
    have hstep : countsAgree cfg (processDay cfg rules st d₀) := by
      rw [processDay]
      exact cnt_slots cfg rules d₀ (hmem d₀ (List.mem_cons_self d₀ rest)) hnd hemp
        hnR cfg.slots hnS (fun s hscur => hscur) (st, fun _ _ => false)
        (fun s _ r => hempty d₀ (List.mem_cons_self d₀ rest) s r) h
    refine ih (List.nodup_cons.1 hlnd).2
      (fun d hd => hmem d (List.mem_cons_of_mem d₀ hd)) _ ?_ hstep
    intro d hd s r
    rw [processDay_frame cfg rules st d₀ d s r
      (fun he => (List.nodup_cons.1 hlnd).1 (he ▸ hd))]
    exact hempty d (List.mem_cons_of_mem d₀ hd) s r

/-- The rescan of the all-empty grid is zero everywhere. -/
theorem countsAgree_start (cfg : Config) (c : Nat) : countsAgree cfg (startState c) := by
  constructor
  · intro t
    rw [startState, calculateTherapistCounts_eq_flat, flat_totalSlots]
    have : (cellsOf cfg).countP
        (fun cell : String × String × String =>
          decide ((fun _ _ _ => "" : Grid) cell.1 cell.2.1 cell.2.2 = t ∧ t ≠ "" ∧
            t ∈ cfg.therapists)) = 0 := by
      rw [List.countP_eq_zero]
      intro a _
      simp only [decide_eq_true_eq]
      intro hcc
      exact hcc.2.1 hcc.1.symm
    rw [this]
  · intro t r
    rw [startState, calculateTherapistCounts_eq_flat, flat_roomDistribution]
    have : (cellsOf cfg).countP
        (fun cell : String × String × String =>
          decide ((fun _ _ _ => "" : Grid) cell.1 cell.2.1 cell.2.2 = t ∧ t ≠ "" ∧
            t ∈ cfg.therapists ∧ r = cell.2.2)) = 0 := by
      rw [List.countP_eq_zero]
      intro a _
      simp only [decide_eq_true_eq]
      intro hcc
      exact hcc.2.1 hcc.1.symm
    rw [this]

/-- C6: at the end of a generation pass, the incrementally maintained fairness
counters equal the counters recomputed by a full scan of the generated grid. -/
theorem fairness_counters_agree (rules : TherapistRules) (c : Nat) :
    (∀ t, (generateAutoRoster cfg0 rules c).total t =
      (calculateTherapistCounts cfg0
        (generateAutoRoster cfg0 rules c).grid).totalSlots t) ∧
    (∀ t r, (generateAutoRoster cfg0 rules c).roomUsage t r =
      (calculateTherapistCounts cfg0
        (generateAutoRoster cfg0 rules c).grid).roomDistribution t r) := by
  have h : countsAgree cfg0 (generateAutoRoster cfg0 rules c) := by
    rw [generateAutoRoster]
    exact cnt_days cfg0 rules (by decide) (by decide) (by decide) (by decide)
      cfg0.days (by decide) (fun _ hdm => hdm) (startState c) (fun _ _ _ _ => rfl)
      (countsAgree_start cfg0 c)
  exact ⟨h.1, h.2⟩

/-- C5: balanced-load scenario.  With the 5 days, 2 slots, 10 fully available
people (no WFH, both slots, cap 2) and the 4 unrestricted rooms, generation
from the initial cursor 0 (the value of `lastAssignedIndex` at startup) fills
all 40 cells and gives every person a total of exactly 4 assignments. -/
theorem balanced_load_scenario :
    (days.all fun d => slots.all fun s => cfgBalanced.rooms.all fun r =>
      (generateAutoRoster cfgBalanced defaultAvailability 0).grid d s r != "") = true ∧
    (therapists.all fun t =>
      (generateAutoRoster cfgBalanced defaultAvailability 0).total t == 4) = true := by
  constructor <;> decide
